import Mathlib

/-!
Verification of the result-normalization and output-formatting pipeline of
crunchy-cli (src/crunchy-cli-core/src/cli/query.rs and search.rs).

Records flowing through the pipeline are JSON objects whose values are all
strings; we embed the (insertion-ordered) serde_json map as an association
list `List (String × String)`.
-/

namespace CrunchyCli

/-- A serde_json object with string values, in insertion order.  The real
map keeps keys unique; `nodupKeys` states that invariant. -/
abbrev JMap := List (String × String)

def nodupKeys (m : JMap) : Prop := (m.map Prod.fst).Nodup

instance (m : JMap) : Decidable (nodupKeys m) := by
  unfold nodupKeys; infer_instance

/-- The inner `for (key, value) in object.clone()` loop of `sort_json`:
find the first entry of the object whose key `k` satisfies
`arg == format!("--{}", k)`. -/
def findFlag (arg : String) : JMap → Option (String × String)
  | [] => none
  | kv :: rest => if arg = "--" ++ kv.1 then some kv else findFlag arg rest

/-- Rust `object.remove(&key)` on a serde_json map: drop the entry with this key. -/
def eraseKey (k : String) : JMap → JMap
  | [] => []
  | kv :: rest => if kv.1 = k then rest else kv :: eraseKey k rest

/-- The outer `for arg in std::env::args()` loop of `sort_json`, with the
remaining object and the accumulated `sorted` map as explicit state. -/
def sortJsonGo : List String → JMap → JMap → JMap
  | [], _, sorted => sorted
  | arg :: args, object, sorted =>
    match findFlag arg object with
    | some kv => sortJsonGo args (eraseKey kv.1 object) (sorted ++ [kv])
    | none => sortJsonGo args object sorted

/-- The function `sort_json` of query.rs / search.rs: scan the process argument
vector; whenever an argument equals `--<key>` for a key still in the
object, move that entry from the object to the end of `sorted`. -/
def sort_json (object : JMap) (args : List String) : JMap :=
  sortJsonGo args object []

/-- One argument of the spec-side ordering rule of §4.4: if the argument
has the literal shape `--F` for a present field `F` not already appended,
append that field. -/
def sortSpecStep (object : JMap) (acc : JMap) (arg : String) : JMap :=
  match object.find? (fun kv => arg = "--" ++ kv.1) with
  | some kv => if kv.1 ∈ acc.map Prod.fst then acc else acc ++ [kv]
  | none => acc

/-- The spec-side ordering rule of §4.4, written from the spec words:
scan the argument vector left to right and append the entry of field `F`
at each argument literally equal to `--F` when `F` is a present field not
already appended. -/
def sortSpec (object : JMap) (args : List String) : JMap :=
  args.foldl (sortSpecStep object) []

/-- Rust `struct Output` of query.rs / search.rs: the flattened record. -/
structure Output where
  id : String
  url : String
  type_ : String
  title : String
  description : String
deriving DecidableEq

/-- The five boolean field-selection flags of the `Query` / `Search`
command structs (`--id --url --type --title --description`). -/
structure FieldSelection where
  id : Bool
  url : Bool
  type_ : Bool
  title : Bool
  description : Bool
deriving DecidableEq

/-- Rust `struct FormattedOutput`: each attribute is optional; a `none`
attribute is skipped entirely by serialization
(`serde_with::skip_serializing_none`). -/
structure FormattedOutput where
  id : Option String
  url : Option String
  type_ : Option String
  title : Option String
  description : Option String
deriving DecidableEq

/-- Rust `b.then_some(v)`. -/
def boolThenSome (b : Bool) (v : String) : Option String :=
  if b then some v else none

/-- The body of `convert_to_formatted_outputs` for one record. -/
def convert_to_formatted_output (sel : FieldSelection) (o : Output) : FormattedOutput :=
  { id := boolThenSome sel.id o.id
    url := boolThenSome sel.url o.url
    type_ := boolThenSome sel.type_ o.type_
    title := boolThenSome sel.title o.title
    description := boolThenSome sel.description o.description }

/-- The function `convert_to_formatted_outputs`: project every record. -/
def convert_to_formatted_outputs (sel : FieldSelection) (outputs : List Output) :
    List FormattedOutput :=
  outputs.map (convert_to_formatted_output sel)

def optField (k : String) : Option String → JMap
  | none => []
  | some v => [(k, v)]

/-- The serde serialization of `FormattedOutput` to a JSON object: fields in
declaration order, `type_` renamed to `type`, `none` fields skipped. -/
def FormattedOutput.toJMap (f : FormattedOutput) : JMap :=
  optField "id" f.id ++ optField "url" f.url ++ optField "type" f.type_ ++
    optField "title" f.title ++ optField "description" f.description

/-- Rust `struct Series` / `Episode` / `Movie` data used by the flatten loop. -/
structure MediaInfo where
  id : String
  slug_title : String
  title : String
  description : String
deriving DecidableEq

deriving instance DecidableEq for Except

/-- The `crunchyroll_rs::MediaCollection` variants matched by the flatten
loop.  A movie listing carries the outcome of its later
`movie_listing.movies().await` expansion call: `Except.error` models a
failing remote call, `Except.ok` the returned movie list. -/
inductive MediaCollection where
  | series (s : MediaInfo)
  | season
  | episode (e : MediaInfo)
  | movieListing (movies : Except Unit (List MediaInfo))
  | movie (m : MediaInfo)
deriving DecidableEq

/-- One iteration of the flatten loop: the outputs pushed and the
warnings logged for one entity, or the propagated expansion failure. -/
def flattenOne : MediaCollection → Except Unit (List Output × List String)
  | .series s =>
      .ok ([⟨s.id, "https://www.crunchyroll.com/series/" ++ s.id ++ "/" ++ s.slug_title,
        "series", s.title, s.description⟩], [])
  | .season => .ok ([], ["Found season, skipping"])
  | .episode e =>
      .ok ([⟨e.id, "https://www.crunchyroll.com/watch/" ++ e.id ++ "/" ++ e.slug_title,
        "episode", e.title, e.description⟩], [])
  | .movieListing mv =>
      match mv with
      | .error e => .error e
      | .ok movies =>
          match movies.head? with
          | some movie =>
              .ok ([⟨movie.id,
                "https://www.crunchyroll.com/watch/" ++ movie.id ++ "/" ++ movie.slug_title,
                "movie", movie.title, movie.description⟩], [])
          | none => .ok ([], ["Movie listing queried but no movie found"])
  | .movie m =>
      .ok ([⟨m.id, "https://www.crunchyroll.com/watch/" ++ m.id ++ "/" ++ m.slug_title,
        "movie", m.title, m.description⟩], [])

/-- The flatten loop over a sequence of entities.  On a failing listing
expansion the loop aborts with the warnings already logged. -/
def flatten : List MediaCollection → Except (List String) (List Output × List String)
  | [] => .ok ([], [])
  | e :: es =>
      match flattenOne e with
      | .error _ => .error []
      | .ok (outs, warns) =>
          match flatten es with
          | .error ws => .error (warns ++ ws)
          | .ok (outs2, warns2) => .ok (outs ++ outs2, warns ++ warns2)

/-- The character loop of the `OutputFormat::QuotedCsv` branch: a `"` is
preceded by an extra `"` before the unconditional `buf.push(char)`, a
`\r` or `\n` hits `continue` and is pushed nowhere, every other
character is pushed as is. -/
def quotedCsvBodyChars : List Char → List Char
  | [] => []
  | c :: cs =>
    if c = '"' then '"' :: c :: quotedCsvBodyChars cs
    else if c = '\r' ∨ c = '\n' then quotedCsvBodyChars cs
    else c :: quotedCsvBodyChars cs

/-- One quoted-csv field: the transformed value wrapped in literal
double-quote delimiters. -/
def quotedCsvField (s : String) : String :=
  "\"" ++ String.mk (quotedCsvBodyChars s.data) ++ "\""

/-- Rust `csv.join(";")`. -/
def joinSemi : List String → String
  | [] => ""
  | [s] => s
  | s :: s2 :: rest => s ++ ";" ++ joinSemi (s2 :: rest)

/-- The emitted quoted-csv line for one record, in field order. -/
def quotedCsvLine (values : List String) : String :=
  joinSemi (values.map quotedCsvField)

/-- Lowercase hexadecimal digit, as used by serde_json `\u00XX` escapes. -/
def hexDigitChar (n : Nat) : Char :=
  if n < 10 then Char.ofNat (48 + n) else Char.ofNat (87 + n)

/-- Modelled from the spec: serde_json string escaping (the `json`
encoder serializes the ordered mapping with the library's standard
escapes) — `"` and `\` get a backslash, the named control characters get
their short escapes, other control characters below 0x20 get `\u00XX`,
everything else is copied. -/
def escapeChar (c : Char) : List Char :=
  if c = '"' then ['\\', '"']
  else if c = '\\' then ['\\', '\\']
  else if c = '\x08' then ['\\', 'b']
  else if c = '\t' then ['\\', 't']
  else if c = '\n' then ['\\', 'n']
  else if c = '\x0c' then ['\\', 'f']
  else if c = '\r' then ['\\', 'r']
  else if c.toNat < 32 then
    ['\\', 'u', '0', '0', hexDigitChar (c.toNat / 16), hexDigitChar (c.toNat % 16)]
  else [c]

def escapeChars (l : List Char) : List Char := l.flatMap escapeChar

/-- A serialized JSON string: escaped content between quote delimiters. -/
def serStrChars (l : List Char) : List Char := '"' :: (escapeChars l ++ ['"'])

/-- One serialized `"key":"value"` pair. -/
def pairChars (kv : String × String) : List Char :=
  serStrChars kv.1.data ++ ':' :: serStrChars kv.2.data

/-- The comma-separated pair list of a compact JSON object. -/
def pairsChars : JMap → List Char
  | [] => []
  | [kv] => pairChars kv
  | kv :: kv2 :: rest => pairChars kv ++ ',' :: pairsChars (kv2 :: rest)

/-- Modelled from the spec: `serde_json::to_string(&as_map)` — one
compact JSON object whose key order is the map's insertion order. -/
def jsonObjectLine (m : JMap) : String :=
  String.mk ('\x7b' :: (pairsChars m ++ ['\x7d']))

/-- Rust `enum OutputFormat` of query.rs / search.rs. -/
inductive OutputFormat where
  | csv
  | quotedCsv
  | json
deriving DecidableEq

/-- The per-record `match self.output_format` of the print loop: the one
line printed for an ordered record. -/
def renderRecord (fmt : OutputFormat) (m : JMap) : String :=
  match fmt with
  | .csv => joinSemi (m.map Prod.snd)
  | .quotedCsv => quotedCsvLine (m.map Prod.snd)
  | .json => jsonObjectLine m

/-- Rust `enum QueryType` of query.rs. -/
inductive QueryType where
  | series
  | episode
  | movie
deriving DecidableEq

/-- Rust `enum SearchType` of search.rs. -/
inductive SearchType where
  | series
  | episode
  | movie
deriving DecidableEq

/-- The `crunchyroll_rs::search::QueryType` values the two commands put into
the remote request's `result_type`. -/
inductive RemoteQueryType where
  | series
  | episode
  | movieListing
deriving DecidableEq

/-- The `match query_type` arms of query.rs (`Movie` maps to the remote
`MovieListing` result type). -/
def QueryType.toRemote : QueryType → RemoteQueryType
  | .series => .series
  | .episode => .episode
  | .movie => .movieListing

/-- The `match search_type` arms of search.rs. -/
def SearchType.toRemote : SearchType → RemoteQueryType
  | .series => .series
  | .episode => .episode
  | .movie => .movieListing

/-- The remote catalog response used by the free-text branch:
`query.top_results` is an `Option` holding the items container. -/
structure QueryResponse where
  top_results : Option (List MediaCollection)
deriving DecidableEq

/-- The external collaborators of one invocation: the process argument
vector, the URL recognizer, the direct-lookup call and the catalog query
call (the latter keyed by the request's input, limit and result type).
Remote failures are `Except.error`. -/
structure Env where
  args : List String
  isUrl : String → Bool
  urlResult : String → Except Unit MediaCollection
  queryResult : String → Nat → Option RemoteQueryType → Except Unit QueryResponse

/-- Observable outcome of `execute`: a Rust panic, an error returned to
the caller (with the warnings logged first), or normal completion with
the printed lines and logged warnings. -/
inductive ExecOutcome where
  | panicked (msg : String)
  | errored (warnings : List String)
  | done (lines : List String) (warnings : List String)
deriving DecidableEq

/-- Rust `struct Query` of query.rs (parsed command line). -/
structure Query where
  limit : Nat
  query_type : Option QueryType
  id : Bool
  url : Bool
  type_ : Bool
  title : Bool
  description : Bool
  output_format : OutputFormat
  input : String

/-- Rust `struct Search` of search.rs (parsed command line). -/
structure Search where
  limit : Nat
  search_type : Option SearchType
  id : Bool
  url : Bool
  type_ : Bool
  title : Bool
  description : Bool
  output_format : OutputFormat
  input : String

def Query.selection (q : Query) : FieldSelection :=
  ⟨q.id, q.url, q.type_, q.title, q.description⟩

def Search.selection (s : Search) : FieldSelection :=
  ⟨s.id, s.url, s.type_, s.title, s.description⟩

/-- Rust `impl Execute for Query`: resolve the input (URL branch or catalog
query with `top_results.unwrap()`), flatten, project, order, encode and
print one line per record. -/
def Query.execute (q : Query) (env : Env) : ExecOutcome :=
  let resultsE : Except ExecOutcome (List MediaCollection) :=
    if env.isUrl q.input then
      match env.urlResult q.input with
      | .error _ => .error (.errored [])
      | .ok mc => .ok [mc]
    else
      match env.queryResult q.input q.limit (q.query_type.map QueryType.toRemote) with
      | .error _ => .error (.errored [])
      | .ok resp =>
          match resp.top_results with
          | none => .error (.panicked "called `Option::unwrap()` on a `None` value")
          | some items => .ok items
  match resultsE with
  | .error o => o
  | .ok results =>
      match flatten results with
      | .error warns => .errored warns
      | .ok (outputs, warns) =>
          .done
            ((convert_to_formatted_outputs q.selection outputs).map fun f =>
              renderRecord q.output_format (sort_json f.toJMap env.args))
            warns

/-- Rust `impl Execute for Search`: textually the same pipeline as
`Query::execute` with the search-type filter. -/
def Search.execute (s : Search) (env : Env) : ExecOutcome :=
  let resultsE : Except ExecOutcome (List MediaCollection) :=
    if env.isUrl s.input then
      match env.urlResult s.input with
      | .error _ => .error (.errored [])
      | .ok mc => .ok [mc]
    else
      match env.queryResult s.input s.limit (s.search_type.map SearchType.toRemote) with
      | .error _ => .error (.errored [])
      | .ok resp =>
          match resp.top_results with
          | none => .error (.panicked "called `Option::unwrap()` on a `None` value")
          | some items => .ok items
  match resultsE with
  | .error o => o
  | .ok results =>
      match flatten results with
      | .error warns => .errored warns
      | .ok (outputs, warns) =>
          .done
            ((convert_to_formatted_outputs s.selection outputs).map fun f =>
              renderRecord s.output_format (sort_json f.toJMap env.args))
            warns

/-- The constructor-wise correspondence between the two commands' type
filters (both sides map to the same remote result type). -/
def QueryType.toSearchType : QueryType → SearchType
  | .series => .series
  | .episode => .episode
  | .movie => .movie

/-- Hexadecimal digit value accepted by a JSON `\uXXXX` escape. -/
def hexVal (c : Char) : Option Nat :=
  if 48 ≤ c.toNat ∧ c.toNat ≤ 57 then some (c.toNat - 48)
  else if 97 ≤ c.toNat ∧ c.toNat ≤ 102 then some (c.toNat - 87)
  else if 65 ≤ c.toNat ∧ c.toNat ≤ 70 then some (c.toNat - 55)
  else none

/-- The single-character JSON escapes. -/
def simpleEscape (c : Char) : Option Char :=
  if c = '"' then some '"'
  else if c = '\\' then some '\\'
  else if c = '/' then some '/'
  else if c = 'b' then some '\x08'
  else if c = 'f' then some '\x0c'
  else if c = 'n' then some '\n'
  else if c = 'r' then some '\r'
  else if c = 't' then some '\t'
  else none

/-- Modelled from the spec: `parseJSON` string contents — consume
characters up to the closing quote, resolving backslash escapes and
rejecting raw control characters, returning the decoded content and the
remaining input.  The fuel argument only bounds the recursion depth; one
unit is spent per decoded character, so an input-length budget of fuel
never runs out. -/
def parseCharsF : Nat → List Char → Option (List Char × List Char)
  | 0, _ => none
  | _ + 1, [] => none
  | fuel + 1, c :: cs =>
    if c = '"' then some ([], cs)
    else if c = '\\' then
      match cs with
      | [] => none
      | e :: cs2 =>
        if e = 'u' then
          match cs2 with
          | h1 :: h2 :: h3 :: h4 :: cs3 =>
            match hexVal h1, hexVal h2, hexVal h3, hexVal h4 with
            | some a, some b, some c2, some d =>
              let code := ((a * 16 + b) * 16 + c2) * 16 + d
              if Nat.isValidChar code then
                match parseCharsF fuel cs3 with
                | some (s, r) => some (Char.ofNat code :: s, r)
                | none => none
              else none
            | _, _, _, _ => none
          | _ => none
        else
          match simpleEscape e with
          | some ch =>
            match parseCharsF fuel cs2 with
            | some (s, r) => some (ch :: s, r)
            | none => none
          | none => none
    else if c.toNat < 32 then none
    else
      match parseCharsF fuel cs with
      | some (s, r) => some (c :: s, r)
      | none => none

/-- Modelled from the spec: the `"key":"value"` pair list of a compact
JSON object, up to and including the closing brace; one unit of fuel per
pair. -/
def parsePairsF : Nat → List Char → Option JMap
  | 0, _ => none
  | fuel + 1, l =>
    match l with
    | [] => none
    | c :: cs =>
      if c = '"' then
        match parseCharsF (fuel + 1) cs with
        | some (k, r1) =>
          match r1 with
          | ':' :: c2 :: r2 =>
            if c2 = '"' then
              match parseCharsF (fuel + 1) r2 with
              | some (v, r3) =>
                match r3 with
                | ',' :: r4 =>
                  match parsePairsF fuel r4 with
                  | some ps => some ((String.mk k, String.mk v) :: ps)
                  | none => none
                | [d] => if d = '\x7d' then some [(String.mk k, String.mk v)] else none
                | _ => none
              | none => none
            else none
          | _ => none
        | none => none
      else none

/-- Modelled from the spec: `parseJSON` of one line holding a compact
JSON object with string values. -/
def parseJsonLine (s : String) : Option JMap :=
  match s.data with
  | [] => none
  | c :: rest =>
    if c = '\x7b' then
      match rest with
      | [d] => if d = '\x7d' then some [] else none
      | _ => parsePairsF rest.length rest
    else none

/-- Modelled from the spec: the clap argument layer sets each boolean
field-selection flag iff its literal long flag occurs in the process
argument vector (CLI surface, §6). -/
def selOfArgs (args : List String) : FieldSelection :=
  ⟨decide ("--id" ∈ args), decide ("--url" ∈ args), decide ("--type" ∈ args),
    decide ("--title" ∈ args), decide ("--description" ∈ args)⟩

lemma flag_inj {a b : String} (h : "--" ++ a = "--" ++ b) : a = b := by
  have hd : ("--" ++ a).data = ("--" ++ b).data := by rw [h]
  rw [String.data_append, String.data_append] at hd
  exact String.ext (List.append_cancel_left hd)

lemma findFlag_eq_none {arg : String} {m : JMap} :
    findFlag arg m = none ↔ ∀ kv ∈ m, arg ≠ "--" ++ kv.1 := by
  induction m with
  | nil => simp [findFlag]
  | cons kv rest ih =>
    by_cases h : arg = "--" ++ kv.1 <;> simp [findFlag, h, ih]

lemma findFlag_eq_some {arg : String} {m : JMap} {kv : String × String}
    (h : findFlag arg m = some kv) : kv ∈ m ∧ arg = "--" ++ kv.1 := by
  induction m with
  | nil => simp [findFlag] at h
  | cons kv2 rest ih =>
    by_cases h2 : arg = "--" ++ kv2.1
    · simp [findFlag, h2] at h
      subst h
      exact ⟨List.mem_cons_self _ _, h2⟩
    · simp [findFlag, h2] at h
      obtain ⟨hm, he⟩ := ih h
      exact ⟨List.mem_cons_of_mem _ hm, he⟩

lemma findFlag_of_mem {arg : String} {m : JMap} {kv : String × String}
    (hn : nodupKeys m) (hm : kv ∈ m) (he : arg = "--" ++ kv.1) :
    findFlag arg m = some kv := by
  induction m with
  | nil => simp at hm
  | cons kv2 rest ih =>
    rcases List.mem_cons.mp hm with rfl | hm2
    · simp [findFlag, he]
    · by_cases h2 : arg = "--" ++ kv2.1
      · -- the head has the same key as kv, contradicting nodup keys
        have hk : kv2.1 = kv.1 := flag_inj (h2 ▸ he)
        exfalso
        have hmem : kv.1 ∈ (rest.map Prod.fst) := List.mem_map_of_mem _ hm2
        have hnd : kv2.1 ∉ rest.map Prod.fst ∧ (rest.map Prod.fst).Nodup := by
          have h3 := hn
          unfold nodupKeys at h3
          simpa using List.nodup_cons.mp h3
        exact hnd.1 (by rw [hk]; exact hmem)
      · have hrest : nodupKeys rest := by
          unfold nodupKeys at hn ⊢
          exact (List.nodup_cons.mp hn).2
        simp [findFlag, h2, ih hrest hm2]

lemma key_unique {m : JMap} (hn : nodupKeys m) {x y : String × String}
    (hx : x ∈ m) (hy : y ∈ m) (hk : x.1 = y.1) : x = y :=
  List.inj_on_of_nodup_map hn hx hy hk

lemma eraseKey_subset {k : String} {m : JMap} : ∀ kv ∈ eraseKey k m, kv ∈ m := by
  induction m with
  | nil => simp [eraseKey]
  | cons kv2 rest ih =>
    intro kv h
    by_cases h2 : kv2.1 = k
    · simp [eraseKey, h2] at h
      exact List.mem_cons_of_mem _ h
    · simp only [eraseKey, if_neg h2] at h
      rcases List.mem_cons.mp h with rfl | h3
      · exact List.mem_cons_self _ _
      · exact List.mem_cons_of_mem _ (ih _ h3)

lemma eraseKey_sublist (k : String) (m : JMap) : (eraseKey k m).Sublist m := by
  induction m with
  | nil => simp [eraseKey]
  | cons kv2 rest ih =>
    by_cases h2 : kv2.1 = k
    · simp only [eraseKey, if_pos h2]
      exact List.sublist_cons_self _ _
    · simp only [eraseKey, if_neg h2]
      exact ih.cons₂ _

lemma nodupKeys_eraseKey {k : String} {m : JMap} (hn : nodupKeys m) :
    nodupKeys (eraseKey k m) := by
  unfold nodupKeys at hn ⊢
  exact List.Nodup.sublist (List.Sublist.map _ (eraseKey_sublist k m)) hn

lemma mem_eraseKey_of_ne {k : String} {m : JMap} {kv : String × String}
    (hm : kv ∈ m) (hk : kv.1 ≠ k) : kv ∈ eraseKey k m := by
  induction m with
  | nil => simp at hm
  | cons kv2 rest ih =>
    rcases List.mem_cons.mp hm with rfl | h3
    · simp [eraseKey, hk]
    · by_cases h2 : kv2.1 = k
      · simpa [eraseKey, h2] using h3
      · simp only [eraseKey, if_neg h2]
        exact List.mem_cons_of_mem _ (ih h3)

lemma nodupKeys_filter {p : String × String → Bool} {m : JMap} (hn : nodupKeys m) :
    nodupKeys (m.filter p) := by
  unfold nodupKeys at hn ⊢
  exact List.Nodup.sublist (List.Sublist.map _ (List.filter_sublist m)) hn

lemma eraseKey_eq_filter {k : String} {m : JMap} (hn : nodupKeys m) :
    eraseKey k m = m.filter fun x => decide (x.1 ≠ k) := by
  induction m with
  | nil => rfl
  | cons kv rest ih =>
    have hnd : kv.1 ∉ rest.map Prod.fst ∧ (rest.map Prod.fst).Nodup := by
      have h3 := hn
      unfold nodupKeys at h3
      simpa using List.nodup_cons.mp h3
    by_cases h2 : kv.1 = k
    · have hd : (decide (kv.1 ≠ k)) = false := by simp [h2]
      simp only [eraseKey, if_pos h2, List.filter_cons, hd]
      simp only [Bool.false_eq_true, if_false]
      symm
      rw [List.filter_eq_self]
      intro a ha
      have hne : a.1 ≠ kv.1 := by
        intro hkk
        exact hnd.1 (hkk ▸ List.mem_map_of_mem _ ha)
      simp [h2 ▸ hne]
    · have hd : (decide (kv.1 ≠ k)) = true := by simp [h2]
      simp only [eraseKey, if_neg h2, List.filter_cons, hd]
      rw [if_pos trivial, ih hnd.2]

lemma sortJsonGo_eq_foldl (object0 : JMap) (h : nodupKeys object0) :
    ∀ (args : List String) (sorted : JMap),
      sortJsonGo args (object0.filter fun x => decide (x.1 ∉ sorted.map Prod.fst)) sorted
        = args.foldl (sortSpecStep object0) sorted := by
  intro args
  induction args with
  | nil => intro sorted; rfl
  | cons arg args ih =>
    intro sorted
    simp only [List.foldl_cons, sortJsonGo]
    have hobj : nodupKeys (object0.filter fun x => decide (x.1 ∉ sorted.map Prod.fst)) :=
      nodupKeys_filter h
    rcases hfind : findFlag arg (object0.filter fun x => decide (x.1 ∉ sorted.map Prod.fst))
      with _ | kv
    · -- the code skips this argument: the spec step leaves the accumulator unchanged
      have hstep : sortSpecStep object0 sorted arg = sorted := by
        unfold sortSpecStep
        rcases hf0 : object0.find? (fun kv => decide (arg = "--" ++ kv.1)) with _ | kv0
        · rw [hf0]
        · rw [hf0]
          have hm0 : kv0 ∈ object0 := List.mem_of_find?_eq_some hf0
          have hp := List.find?_some hf0
          have he0 : arg = "--" ++ kv0.1 := of_decide_eq_true hp
          have hdup : kv0.1 ∈ sorted.map Prod.fst := by
            by_contra hnd
            have hmem2 : kv0 ∈ object0.filter fun x => decide (x.1 ∉ sorted.map Prod.fst) :=
              List.mem_filter.mpr ⟨hm0, by simpa using hnd⟩
            exact (findFlag_eq_none.mp hfind kv0 hmem2) he0
          simp [hdup]
      rw [hstep]
      exact ih sorted
    · -- the code moves entry kv: the spec step appends the same entry
      obtain ⟨hmf, he⟩ := findFlag_eq_some hfind
      have hmem : kv ∈ object0 := (List.mem_filter.mp hmf).1
      have hnew : kv.1 ∉ sorted.map Prod.fst := by
        have hp := (List.mem_filter.mp hmf).2
        simpa using hp
      have hstep : sortSpecStep object0 sorted arg = sorted ++ [kv] := by
        unfold sortSpecStep
        rcases hf0 : object0.find? (fun kv => decide (arg = "--" ++ kv.1)) with _ | kv0
        · exfalso
          have hx := List.find?_eq_none.mp hf0 kv hmem
          simp [he] at hx
        · rw [hf0]
          have hm0 : kv0 ∈ object0 := List.mem_of_find?_eq_some hf0
          have hp := List.find?_some hf0
          have he0 : arg = "--" ++ kv0.1 := of_decide_eq_true hp
          have hkv : kv0 = kv := key_unique h hm0 hmem (flag_inj (he0 ▸ he))
          subst hkv
          simp [hnew]
      rw [hstep]
      have herase :
          eraseKey kv.1 (object0.filter fun x => decide (x.1 ∉ sorted.map Prod.fst))
            = object0.filter fun x => decide (x.1 ∉ (sorted ++ [kv]).map Prod.fst) := by
        rw [eraseKey_eq_filter hobj, List.filter_filter]
        apply List.filter_congr
        intro a _
        by_cases h1 : a.1 = kv.1 <;> by_cases hm2 : a.1 ∈ sorted.map Prod.fst <;>
          simp [h1, hm2]
      show sortJsonGo args
          (eraseKey kv.1 (object0.filter fun x => decide (x.1 ∉ sorted.map Prod.fst)))
          (sorted ++ [kv])
        = List.foldl (sortSpecStep object0) (sorted ++ [kv]) args
      rw [herase]
      exact ih (sorted ++ [kv])

/-- Function `sort_json` equals the §4.4 spec-side scan when the object has
no duplicate keys (the serde_json map invariant). -/
lemma sort_json_eq_sortSpec {object : JMap} (h : nodupKeys object) (args : List String) :
    sort_json object args = sortSpec object args := by
  unfold sort_json sortSpec
  have := sortJsonGo_eq_foldl object h args []
  simpa using this

lemma mem_sortJsonGo_of_mem_sorted :
    ∀ (args : List String) (object sorted : JMap) (kv : String × String),
      kv ∈ sorted → kv ∈ sortJsonGo args object sorted := by
  intro args
  induction args with
  | nil => intro object sorted kv h; exact h
  | cons arg args ih =>
    intro object sorted kv h
    simp only [sortJsonGo]
    rcases hf : findFlag arg object with _ | kv2
    · exact ih object sorted kv h
    · exact ih (eraseKey kv2.1 object) (sorted ++ [kv2]) kv (List.mem_append_left _ h)

lemma mem_sortJsonGo :
    ∀ (args : List String) (object sorted : JMap) (kv : String × String),
      kv ∈ sortJsonGo args object sorted →
      kv ∈ sorted ∨ (kv ∈ object ∧ ("--" ++ kv.1) ∈ args) := by
  intro args
  induction args with
  | nil => intro object sorted kv h; exact Or.inl h
  | cons arg args ih =>
    intro object sorted kv h
    simp only [sortJsonGo] at h
    rcases hf : findFlag arg object with _ | kv2
    · rw [hf] at h
      rcases ih object sorted kv h with h1 | ⟨h1, h2⟩
      · exact Or.inl h1
      · exact Or.inr ⟨h1, List.mem_cons_of_mem _ h2⟩
    · rw [hf] at h
      obtain ⟨hm2, he2⟩ := findFlag_eq_some hf
      rcases ih _ _ kv h with h1 | ⟨h1, h2⟩
      · rcases List.mem_append.mp h1 with h3 | h3
        · exact Or.inl h3
        · have hkv : kv = kv2 := by simpa using h3
          subst hkv
          exact Or.inr ⟨hm2, by rw [← he2]; exact List.mem_cons_self _ _⟩
      · exact Or.inr ⟨eraseKey_subset kv h1, List.mem_cons_of_mem _ h2⟩

lemma mem_sortJsonGo_of_flag :
    ∀ (args : List String) (object sorted : JMap) (kv : String × String),
      nodupKeys object → kv ∈ object → ("--" ++ kv.1) ∈ args →
      kv ∈ sortJsonGo args object sorted := by
  intro args
  induction args with
  | nil => intro object sorted kv _ _ h; simp at h
  | cons arg args ih =>
    intro object sorted kv hn hm hflag
    simp only [sortJsonGo]
    rcases hf : findFlag arg object with _ | kv2
    · have harg : arg ≠ "--" ++ kv.1 := fun hc => findFlag_eq_none.mp hf kv hm hc
      have hflag2 : ("--" ++ kv.1) ∈ args := by
        rcases List.mem_cons.mp hflag with h3 | h3
        · exact absurd h3.symm harg
        · exact h3
      exact ih object sorted kv hn hm hflag2
    · obtain ⟨hm2, he2⟩ := findFlag_eq_some hf
      by_cases hkv : kv2 = kv
      · subst hkv
        exact mem_sortJsonGo_of_mem_sorted args _ _ kv2 (List.mem_append_right _ (by simp))
      · have hkeys : kv.1 ≠ kv2.1 := by
          intro hc
          exact hkv (key_unique hn hm2 hm hc.symm)
        have hflag2 : ("--" ++ kv.1) ∈ args := by
          rcases List.mem_cons.mp hflag with h3 | h3
          · exfalso
            exact hkeys (flag_inj (h3.trans he2))
          · exact h3
        exact ih (eraseKey kv2.1 object) (sorted ++ [kv2]) kv (nodupKeys_eraseKey hn)
          (mem_eraseKey_of_ne hm hkeys) hflag2

lemma not_mem_keys_eraseKey {k : String} {m : JMap} (hn : nodupKeys m) :
    k ∉ (eraseKey k m).map Prod.fst := by
  rw [eraseKey_eq_filter hn]
  intro hc
  obtain ⟨x, hx, hk⟩ := List.mem_map.mp hc
  have := (List.mem_filter.mp hx).2
  simp [hk] at this

lemma nodupKeys_sortJsonGo :
    ∀ (args : List String) (object sorted : JMap),
      nodupKeys object → nodupKeys sorted →
      (∀ k, k ∈ sorted.map Prod.fst → k ∉ object.map Prod.fst) →
      nodupKeys (sortJsonGo args object sorted) := by
  intro args
  induction args with
  | nil => intro object sorted _ hs _; exact hs
  | cons arg args ih =>
    intro object sorted hn hs hdisj
    simp only [sortJsonGo]
    rcases hf : findFlag arg object with _ | kv
    · exact ih object sorted hn hs hdisj
    · obtain ⟨hm, _⟩ := findFlag_eq_some hf
      have hkey : kv.1 ∈ object.map Prod.fst := List.mem_map_of_mem _ hm
      apply ih (eraseKey kv.1 object) (sorted ++ [kv]) (nodupKeys_eraseKey hn)
      · unfold nodupKeys
        rw [List.map_append, List.nodup_append]
        refine ⟨hs, by simp, ?_⟩
        intro a ha hb
        have hb2 : a = kv.1 := by simpa using hb
        exact hdisj a ha (by rw [hb2]; exact hkey)
      · intro k hk
        rw [List.map_append, List.mem_append] at hk
        rcases hk with hk | hk
        · intro hc
          obtain ⟨x, hx, hxe⟩ := List.mem_map.mp hc
          exact hdisj k hk (List.mem_map.mpr ⟨x, eraseKey_subset x hx, hxe⟩)
        · have hk2 : k = kv.1 := by simpa using hk
          subst hk2
          exact not_mem_keys_eraseKey hn

/-- C3: for every record map with unique keys and every argument vector,
`sort_json` returns exactly the sequence obtained by the left-to-right
scan of the argument vector described by the spec (appending a present,
not-yet-appended field at each argument literally equal to `--F`); a
present field whose flag never occurs among the arguments is absent from
the result. -/
theorem sort_json_scan_spec (object : JMap) (args : List String) (h : nodupKeys object) :
    sort_json object args = sortSpec object args ∧
    ∀ k v, ("--" ++ k) ∉ args → (k, v) ∉ sort_json object args := by
  refine ⟨sort_json_eq_sortSpec h args, ?_⟩
  intro k v hflag hc
  rcases mem_sortJsonGo args object [] (k, v) hc with h1 | ⟨_, h2⟩
  · simp at h1
  · exact hflag h2

theorem sort_json_scan_spec_witness :
    nodupKeys [("title", "My Show"), ("id", "G1")] ∧
    (sort_json [("title", "My Show"), ("id", "G1")] ["--id", "--x", "--title", "--id"]
        = sortSpec [("title", "My Show"), ("id", "G1")] ["--id", "--x", "--title", "--id"] ∧
      ∀ k v, ("--" ++ k) ∉ ["--id", "--x", "--title", "--id"] →
        (k, v) ∉ sort_json [("title", "My Show"), ("id", "G1")]
          ["--id", "--x", "--title", "--id"]) :=
  ⟨by decide, sort_json_scan_spec _ _ (by decide)⟩

/-- C4 (counterexample): ordering is not presentation-only as universally
stated — with the record carrying field `id` and an argument vector
without `--id`, the field is dropped by `sort_json`. -/
theorem sort_json_not_presentation_only :
    ¬ (∀ k, (∃ v, (k, v) ∈ sort_json [("id", "x")] []) ↔ ∃ v, (k, v) ∈ [("id", "x")]) := by
  intro h
  obtain ⟨v, hv⟩ := (h "id").mpr ⟨"x", List.mem_singleton.mpr rfl⟩
  exact List.not_mem_nil _ hv

/-- C4 (amended): ordering never adds a field — every field present after
ordering was present before — and the field sets are equal whenever every
present field's `--F` flag occurs in the argument vector. -/
theorem sort_json_presentation (object : JMap) (args : List String) (h : nodupKeys object) :
    (∀ k, (∃ v, (k, v) ∈ sort_json object args) → ∃ v, (k, v) ∈ object) ∧
    ((∀ k, k ∈ object.map Prod.fst → ("--" ++ k) ∈ args) →
      ∀ k, (∃ v, (k, v) ∈ sort_json object args) ↔ ∃ v, (k, v) ∈ object) := by
  constructor
  · intro k ⟨v, hv⟩
    rcases mem_sortJsonGo args object [] (k, v) hv with h1 | ⟨h1, _⟩
    · simp at h1
    · exact ⟨v, h1⟩
  · intro hall k
    constructor
    · intro ⟨v, hv⟩
      rcases mem_sortJsonGo args object [] (k, v) hv with h1 | ⟨h1, _⟩
      · simp at h1
      · exact ⟨v, h1⟩
    · intro ⟨v, hv⟩
      exact ⟨v, mem_sortJsonGo_of_flag args object [] (k, v) h hv
        (hall k (List.mem_map_of_mem _ hv))⟩

theorem sort_json_presentation_witness :
    nodupKeys [("title", "My Show"), ("id", "G1")] ∧
    ((∀ k, (∃ v, (k, v) ∈ sort_json [("title", "My Show"), ("id", "G1")] ["--id", "--title"])
        → ∃ v, (k, v) ∈ [("title", "My Show"), ("id", "G1")]) ∧
      ((∀ k, k ∈ ([("title", "My Show"), ("id", "G1")] : JMap).map Prod.fst
          → ("--" ++ k) ∈ ["--id", "--title"]) →
        ∀ k, (∃ v, (k, v) ∈ sort_json [("title", "My Show"), ("id", "G1")] ["--id", "--title"])
          ↔ ∃ v, (k, v) ∈ [("title", "My Show"), ("id", "G1")])) :=
  ⟨by decide, sort_json_presentation _ _ (by decide)⟩

/-- C10: `sort_json` never changes a value and never duplicates a field —
every pair of the result is a pair of the input map and each key occurs
at most once in the result. -/
theorem sort_json_submap (object : JMap) (args : List String) (h : nodupKeys object) :
    (∀ kv ∈ sort_json object args, kv ∈ object) ∧ nodupKeys (sort_json object args) := by
  constructor
  · intro kv hkv
    rcases mem_sortJsonGo args object [] kv hkv with h1 | ⟨h1, _⟩
    · simp at h1
    · exact h1
  · exact nodupKeys_sortJsonGo args object [] h (by simp [nodupKeys]) (by simp)

theorem sort_json_submap_witness :
    nodupKeys [("title", "My Show"), ("id", "G1")] ∧
    ((∀ kv ∈ sort_json [("title", "My Show"), ("id", "G1")] ["--id", "--title", "--id"],
        kv ∈ [("title", "My Show"), ("id", "G1")]) ∧
      nodupKeys (sort_json [("title", "My Show"), ("id", "G1")] ["--id", "--title", "--id"])) :=
  ⟨by decide, sort_json_submap _ _ (by decide)⟩

/-- C5: the projected record contains field `F` with value `v` iff the
selection's boolean for `F` is set and `v` is the record's value,
independently for each of the five fields; unselected fields are entirely
absent from the serialized object. -/
theorem project_iff_selected (o : Output) (sel : FieldSelection) :
    (∀ v, ("id", v) ∈ (convert_to_formatted_output sel o).toJMap ↔ sel.id = true ∧ v = o.id) ∧
    (∀ v, ("url", v) ∈ (convert_to_formatted_output sel o).toJMap ↔ sel.url = true ∧ v = o.url) ∧
    (∀ v, ("type", v) ∈ (convert_to_formatted_output sel o).toJMap
      ↔ sel.type_ = true ∧ v = o.type_) ∧
    (∀ v, ("title", v) ∈ (convert_to_formatted_output sel o).toJMap
      ↔ sel.title = true ∧ v = o.title) ∧
    (∀ v, ("description", v) ∈ (convert_to_formatted_output sel o).toJMap
      ↔ sel.description = true ∧ v = o.description) := by
  obtain ⟨i, u, t, ti, d⟩ := sel
  cases i <;> cases u <;> cases t <;> cases ti <;> cases d <;>
    simp [convert_to_formatted_output, FormattedOutput.toJMap, optField, boolThenSome]

lemma flattenOne_ok {e : MediaCollection} {o : List Output} {w : List String}
    (h : flattenOne e = .ok (o, w)) :
    o.length + w.length = 1 ∧
      (o.length = 1 ↔ (e ≠ .season ∧ e ≠ .movieListing (.ok []))) := by
  cases e with
  | series s =>
    simp only [flattenOne, Except.ok.injEq, Prod.mk.injEq] at h
    simp [← h.1, ← h.2]
  | season =>
    simp only [flattenOne, Except.ok.injEq, Prod.mk.injEq] at h
    simp [← h.1, ← h.2]
  | episode e =>
    simp only [flattenOne, Except.ok.injEq, Prod.mk.injEq] at h
    simp [← h.1, ← h.2]
  | movieListing mv =>
    cases mv with
    | error err => simp [flattenOne] at h
    | ok movies =>
      cases movies with
      | nil =>
        simp only [flattenOne, List.head?_nil, Except.ok.injEq, Prod.mk.injEq] at h
        simp [← h.1, ← h.2]
      | cons m ms =>
        simp only [flattenOne, List.head?_cons, Except.ok.injEq, Prod.mk.injEq] at h
        simp [← h.1, ← h.2]
  | movie m =>
    simp only [flattenOne, Except.ok.injEq, Prod.mk.injEq] at h
    simp [← h.1, ← h.2]

/-- C6: on the success path, flattening yields at most one `Output` per
input entity, with equality exactly when no `Season` and no
empty-expansion `MovieListing` occurs; every skipped entity contributes a
warning instead (outputs plus warnings account for every entity), so
processing continues past skipped entities rather than erroring. -/
theorem flatten_count (es : List MediaCollection) (outs : List Output) (warns : List String)
    (h : flatten es = .ok (outs, warns)) :
    outs.length ≤ es.length ∧
    (outs.length = es.length ↔ ∀ e ∈ es, e ≠ .season ∧ e ≠ .movieListing (.ok [])) ∧
    outs.length + warns.length = es.length := by
  induction es generalizing outs warns with
  | nil =>
    simp only [flatten, Except.ok.injEq, Prod.mk.injEq] at h
    simp [← h.1, ← h.2]
  | cons e es ih =>
    simp only [flatten] at h
    rcases hfo : flattenOne e with err | ow
    · rw [hfo] at h; exact absurd h (by simp)
    · obtain ⟨o1, w1⟩ := ow
      rw [hfo] at h
      rcases hf : flatten es with ws | ow2
      · rw [hf] at h; exact absurd h (by simp)
      · obtain ⟨o2, w2⟩ := ow2
        rw [hf] at h
        simp only [Except.ok.injEq, Prod.mk.injEq] at h
        obtain ⟨ho, hw⟩ := h
        obtain ⟨hone, hiff⟩ := flattenOne_ok hfo
        obtain ⟨hle, heq, hsum⟩ := ih o2 w2 hf
        subst ho hw
        refine ⟨?_, ?_, ?_⟩
        · simp only [List.length_append, List.length_cons]
          omega
        · simp only [List.length_append, List.length_cons, List.mem_cons]
          constructor
          · intro hlen x hx
            have h1 : o1.length = 1 := by omega
            have h2 : o2.length = es.length := by omega
            rcases hx with rfl | hx
            · exact hiff.mp h1
            · exact heq.mp h2 x hx
          · intro hall
            have h1 : o1.length = 1 := hiff.mpr (hall e (Or.inl rfl))
            have h2 : o2.length = es.length := heq.mpr (fun x hx => hall x (Or.inr hx))
            omega
        · simp only [List.length_append, List.length_cons]
          omega

theorem flatten_count_witness :
    flatten [MediaCollection.episode ⟨"E1", "slug", "T", "D"⟩, MediaCollection.season]
        = .ok ([⟨"E1", "https://www.crunchyroll.com/watch/E1/slug", "episode", "T", "D"⟩],
            ["Found season, skipping"]) ∧
    (([(⟨"E1", "https://www.crunchyroll.com/watch/E1/slug", "episode", "T", "D"⟩ : Output)]).length
        ≤ ([MediaCollection.episode ⟨"E1", "slug", "T", "D"⟩, MediaCollection.season]).length ∧
      (([(⟨"E1", "https://www.crunchyroll.com/watch/E1/slug", "episode", "T", "D"⟩ : Output)]).length
          = ([MediaCollection.episode ⟨"E1", "slug", "T", "D"⟩, MediaCollection.season]).length
        ↔ ∀ e ∈ [MediaCollection.episode ⟨"E1", "slug", "T", "D"⟩, MediaCollection.season],
            e ≠ .season ∧ e ≠ .movieListing (.ok [])) ∧
      ([(⟨"E1", "https://www.crunchyroll.com/watch/E1/slug", "episode", "T", "D"⟩ : Output)]).length
          + (["Found season, skipping"]).length
        = ([MediaCollection.episode ⟨"E1", "slug", "T", "D"⟩, MediaCollection.season]).length) :=
  ⟨by decide, flatten_count _ _ _ (by decide)⟩

/-- C1 (counterexample): on the one-character value `"` the emitted field
body contains two double-quotes, not one — the encoder doubles embedded
quotes, contradicting the claimed single-copy behavior. -/
theorem quoted_csv_quote_not_single :
    ¬ ((quotedCsvBodyChars ['"']).count '"' = (['"'] : List Char).count '"') := by
  decide

/-- C1 (amended): each embedded double-quote of the value contributes
exactly two double-quotes to the emitted field body (standard CSV quote
doubling); the surrounding delimiters are added separately. -/
theorem quoted_csv_doubles_quotes (l : List Char) :
    (quotedCsvBodyChars l).count '"' = 2 * l.count '"' := by
  induction l with
  | nil => simp [quotedCsvBodyChars]
  | cons c cs ih =>
    by_cases h1 : c = '"'
    · subst h1
      simp [quotedCsvBodyChars, ih, List.count_cons]
      ring
    · by_cases h2 : c = '\r' ∨ c = '\n'
      · have hc : c ≠ '"' := h1
        simp [quotedCsvBodyChars, h1, h2, ih, List.count_cons, hc]
      · simp [quotedCsvBodyChars, h1, h2, ih, List.count_cons]

lemma quotedCsvBodyChars_no_cr_lf (l : List Char) :
    '\n' ∉ quotedCsvBodyChars l ∧ '\r' ∉ quotedCsvBodyChars l := by
  induction l with
  | nil => simp [quotedCsvBodyChars]
  | cons c cs ih =>
    by_cases h1 : c = '"'
    · subst h1
      have hn : ('\n' : Char) ≠ '"' := by decide
      have hr : ('\r' : Char) ≠ '"' := by decide
      simp [quotedCsvBodyChars, ih.1, ih.2, hn, hr]
    · by_cases h2 : c = '\r' ∨ c = '\n'
      · simpa [quotedCsvBodyChars, h1, h2] using ih
      · push_neg at h2
        simp only [quotedCsvBodyChars, if_neg h1, if_neg (not_or.mpr h2), List.mem_cons]
        constructor
        · rintro (h | h)
          · exact h2.2 h.symm
          · exact ih.1 h
        · rintro (h | h)
          · exact h2.1 h.symm
          · exact ih.2 h

lemma quotedCsvBodyChars_filter (l : List Char) :
    quotedCsvBodyChars l
      = quotedCsvBodyChars (l.filter fun c => !(c = '\r' ∨ c = '\n')) := by
  induction l with
  | nil => simp [quotedCsvBodyChars]
  | cons c cs ih =>
    by_cases h2 : c = '\r' ∨ c = '\n'
    · have hq : c ≠ '"' := by rcases h2 with h | h <;> subst h <;> decide
      simp only [List.filter_cons, quotedCsvBodyChars, if_neg hq, if_pos h2]
      have hd : (!(decide (c = '\r' ∨ c = '\n'))) = false := by simp [h2]
      rw [hd]
      simp only [Bool.false_eq_true, if_false]
      exact ih
    · have hd : (!(decide (c = '\r' ∨ c = '\n'))) = true := by simp [h2]
      simp only [List.filter_cons, hd, if_pos rfl]
      by_cases h1 : c = '"'
      · subst h1
        simp [quotedCsvBodyChars, ih]
      · simp [quotedCsvBodyChars, h1, h2, ih]

lemma quotedCsvField_no_cr_lf (s : String) :
    '\n' ∉ (quotedCsvField s).data ∧ '\r' ∉ (quotedCsvField s).data := by
  unfold quotedCsvField
  simp only [String.data_append, List.mem_append]
  have hb := quotedCsvBodyChars_no_cr_lf s.data
  constructor
  · rintro ((h | h) | h)
    · exact absurd h (by decide)
    · exact hb.1 h
    · exact absurd h (by decide)
  · rintro ((h | h) | h)
    · exact absurd h (by decide)
    · exact hb.2 h
    · exact absurd h (by decide)

lemma joinSemi_no_cr_lf (l : List String)
    (h : ∀ s ∈ l, '\n' ∉ s.data ∧ '\r' ∉ s.data) :
    '\n' ∉ (joinSemi l).data ∧ '\r' ∉ (joinSemi l).data := by
  induction l with
  | nil => simp [joinSemi, String.data]
  | cons s rest ih =>
    cases rest with
    | nil => simpa [joinSemi] using h s (by simp)
    | cons s2 rest2 =>
      have hs := h s (by simp)
      have hrest := ih (fun x hx => h x (List.mem_cons_of_mem _ hx))
      simp only [joinSemi, String.data_append, List.mem_append]
      constructor
      · rintro ((hc | hc) | hc)
        · exact hs.1 hc
        · exact absurd hc (by decide)
        · exact hrest.1 hc
      · rintro ((hc | hc) | hc)
        · exact hs.2 hc
        · exact absurd hc (by decide)
        · exact hrest.2 hc

/-- C7: the quoted-csv encoder deletes every embedded carriage-return and
line-feed outright (encoding a value is the same as encoding the value
with its CR/LF characters removed), and the emitted line for any record
contains no raw newline and no raw carriage-return. -/
theorem quoted_csv_strips_newlines (values : List String) :
    (∀ l : List Char,
      quotedCsvBodyChars l
        = quotedCsvBodyChars (l.filter fun c => !(c = '\r' ∨ c = '\n'))) ∧
    '\n' ∉ (quotedCsvLine values).data ∧ '\r' ∉ (quotedCsvLine values).data := by
  refine ⟨quotedCsvBodyChars_filter, ?_⟩
  unfold quotedCsvLine
  apply joinSemi_no_cr_lf
  intro s hs
  obtain ⟨v, _, rfl⟩ := List.mem_map.mp hs
  exact quotedCsvField_no_cr_lf v

/-- C2 (counterexample): with a free-text input whose catalog query
succeeds but carries no top-results container, `execute` panics (the
`unwrap()` on `None`) — it does not return a recoverable error to the
caller. -/
theorem query_missing_container_not_error :
    ¬ ∃ w, Query.execute
        ⟨10, none, false, false, false, false, false, .csv, "test"⟩
        ⟨[], fun _ => false, fun _ => .error (),
          fun _ _ _ => .ok ⟨none⟩⟩
      = ExecOutcome.errored w := by
  intro ⟨w, hw⟩
  have hp : Query.execute
      ⟨10, none, false, false, false, false, false, .csv, "test"⟩
      ⟨[], fun _ => false, fun _ => .error (),
        fun _ _ _ => .ok ⟨none⟩⟩
    = ExecOutcome.panicked "called `Option::unwrap()` on a `None` value" := rfl
  rw [hp] at hw
  exact absurd hw (by simp)

/-- C2 (amended): for every free-text invocation whose catalog query
succeeds with no top-results container, `execute` panics with the
`unwrap()` message — a crash, not a recoverable error result — and no
output lines are printed. -/
theorem query_missing_container_panics (q : Query) (env : Env)
    (hurl : env.isUrl q.input = false)
    (hq : env.queryResult q.input q.limit (q.query_type.map QueryType.toRemote) = .ok ⟨none⟩) :
    Query.execute q env
      = ExecOutcome.panicked "called `Option::unwrap()` on a `None` value" := by
  unfold Query.execute
  rw [hurl]
  simp only [Bool.false_eq_true, if_false, hq]

theorem query_missing_container_panics_witness :
    ((⟨[], fun _ => false, fun _ => .error (), fun _ _ _ => .ok ⟨none⟩⟩ : Env).isUrl
        (⟨10, none, false, false, false, false, false, .csv, "test"⟩ : Query).input = false) ∧
    Query.execute ⟨10, none, false, false, false, false, false, .csv, "test"⟩
        ⟨[], fun _ => false, fun _ => .error (), fun _ _ _ => .ok ⟨none⟩⟩
      = ExecOutcome.panicked "called `Option::unwrap()` on a `None` value" :=
  ⟨rfl, query_missing_container_panics _ _ rfl rfl⟩

/-- C9: the `query` and `search` commands are behaviorally identical —
for every limit, type filter (under the constructor correspondence),
field selection, output format, input string and environment (argument
vector, URL recognition, resolved entities, remote outcomes), both
commands produce the same outcome: the same printed lines, the same
warnings, and the same error or panic. -/
theorem query_search_equivalent (limit : Nat) (t : Option QueryType)
    (id url type_ title description : Bool) (fmt : OutputFormat) (input : String) (env : Env) :
    Search.execute
        ⟨limit, t.map QueryType.toSearchType, id, url, type_, title, description, fmt, input⟩ env
      = Query.execute ⟨limit, t, id, url, type_, title, description, fmt, input⟩ env := by
  have hmap : (t.map QueryType.toSearchType).map SearchType.toRemote
      = t.map QueryType.toRemote := by
    cases t with
    | none => rfl
    | some x => cases x <;> rfl
  unfold Search.execute Query.execute
  rw [hmap]
  rfl

lemma hexVal_hexDigitChar : ∀ n < 16, hexVal (hexDigitChar n) = some n := by decide

lemma parseCharsF_escapeChars :
    ∀ (l : List Char) (n : Nat) (rest : List Char), l.length ≤ n →
      parseCharsF (n + 1) (escapeChars l ++ '"' :: rest) = some (l, rest) := by
  intro l
  induction l with
  | nil =>
    intro n rest _
    simp [escapeChars, parseCharsF]
  | cons c cs ih =>
    intro n rest hn
    simp only [List.length_cons] at hn
    cases n with
    | zero => omega
    | succ m =>
      have ihm := ih m rest (by omega)
      simp only [escapeChars, List.flatMap_cons, List.append_assoc] at ihm ⊢
      by_cases hq : c = '"'
      · subst hq
        rw [show escapeChar '"' = ['\\', '"'] from by decide]
        simp [parseCharsF, simpleEscape, ihm]
      · by_cases hbs : c = '\\'
        · subst hbs
          rw [show escapeChar '\\' = ['\\', '\\'] from by decide]
          simp [parseCharsF, simpleEscape, ihm]
        · by_cases h8 : c = '\x08'
          · subst h8
            rw [show escapeChar '\x08' = ['\\', 'b'] from by decide]
            simp [parseCharsF, simpleEscape, ihm]
          · by_cases ht : c = '\t'
            · subst ht
              rw [show escapeChar '\t' = ['\\', 't'] from by decide]
              simp [parseCharsF, simpleEscape, ihm]
            · by_cases hnl : c = '\n'
              · subst hnl
                rw [show escapeChar '\n' = ['\\', 'n'] from by decide]
                simp [parseCharsF, simpleEscape, ihm]
              · by_cases hff : c = '\x0c'
                · subst hff
                  rw [show escapeChar '\x0c' = ['\\', 'f'] from by decide]
                  simp [parseCharsF, simpleEscape, ihm]
                · by_cases hcr : c = '\r'
                  · subst hcr
                    rw [show escapeChar '\r' = ['\\', 'r'] from by decide]
                    simp [parseCharsF, simpleEscape, ihm]
                  · by_cases hctl : c.toNat < 32
                    · -- the \u00XX case
                      simp only [escapeChar, if_neg hq, if_neg hbs, if_neg h8, if_neg ht,
                        if_neg hnl, if_neg hff, if_neg hcr, if_pos hctl,
                        List.cons_append, List.nil_append]
                      have hd1 : hexVal (hexDigitChar (c.toNat / 16)) = some (c.toNat / 16) :=
                        hexVal_hexDigitChar _ (by omega)
                      have hd2 : hexVal (hexDigitChar (c.toNat % 16)) = some (c.toNat % 16) :=
                        hexVal_hexDigitChar _ (by omega)
                      have hvalid : Nat.isValidChar (c.toNat / 16 * 16 + c.toNat % 16) :=
                        Or.inl (by omega)
                      have hchar : Char.ofNat (c.toNat / 16 * 16 + c.toNat % 16) = c := by
                        rw [show c.toNat / 16 * 16 + c.toNat % 16 = c.toNat from by omega,
                          Char.ofNat_toNat]
                      simp [parseCharsF, hd1, hd2, hvalid, hchar, ihm,
                        show hexVal '0' = some 0 from by decide]
                    · -- the plain-character case
                      simp only [escapeChar, if_neg hq, if_neg hbs, if_neg h8, if_neg ht,
                        if_neg hnl, if_neg hff, if_neg hcr, if_neg hctl,
                        List.cons_append, List.nil_append]
                      simp [parseCharsF, hq, hbs, hctl, ihm]

lemma escapeChar_length_pos (c : Char) : 1 ≤ (escapeChar c).length := by
  unfold escapeChar
  split_ifs <;> simp

lemma length_le_escapeChars (l : List Char) : l.length ≤ (escapeChars l).length := by
  induction l with
  | nil => simp [escapeChars]
  | cons c cs ih =>
    simp only [escapeChars, List.flatMap_cons, List.length_append, List.length_cons] at ih ⊢
    have := escapeChar_length_pos c
    omega

lemma string_mk_data (s : String) : String.mk s.data = s := rfl

lemma parseCharsF_escapeChars_fuel (l : List Char) (rest : List Char) (fuel : Nat)
    (h : l.length + 1 ≤ fuel) :
    parseCharsF fuel (escapeChars l ++ '"' :: rest) = some (l, rest) := by
  obtain ⟨n, rfl⟩ : ∃ n, fuel = n + 1 := ⟨fuel - 1, by omega⟩
  exact parseCharsF_escapeChars l n rest (by omega)

lemma parsePairsF_pairsChars :
    ∀ (m : JMap) (n : Nat), m ≠ [] → (pairsChars m ++ ['\x7d']).length ≤ n + 1 →
      parsePairsF (n + 1) (pairsChars m ++ ['\x7d']) = some m := by
  intro m
  induction m with
  | nil => intro n h _; exact absurd rfl h
  | cons kv tail ih =>
    intro n _ hlen
    obtain ⟨k, v⟩ := kv
    cases tail with
    | nil =>
      simp only [pairsChars, pairChars, serStrChars, List.append_assoc, List.cons_append,
        List.nil_append, List.singleton_append, List.length_append, List.length_cons] at hlen ⊢
      have hkl := length_le_escapeChars k.data
      have hvl := length_le_escapeChars v.data
      have hk : parseCharsF (n + 1)
            (escapeChars k.data
              ++ '"' :: ':' :: '"' :: (escapeChars v.data ++ '"' :: ['\x7d']))
          = some (k.data, ':' :: '"' :: (escapeChars v.data ++ '"' :: ['\x7d'])) :=
        parseCharsF_escapeChars_fuel _ _ _ (by omega)
      have hv : parseCharsF (n + 1) (escapeChars v.data ++ '"' :: ['\x7d'])
          = some (v.data, ['\x7d']) :=
        parseCharsF_escapeChars_fuel _ _ _ (by omega)
      simp [parsePairsF, hk, hv, string_mk_data]
    | cons kv2 rest =>
      cases n with
      | zero =>
        exfalso
        have h1 := escapeChar_length_pos
        simp only [pairsChars, pairChars, serStrChars, List.length_append,
          List.length_cons] at hlen
        omega
      | succ n2 =>
        have htail : (pairsChars (kv2 :: rest) ++ ['\x7d']).length ≤ n2 + 1 := by
          simp only [pairsChars, pairChars, serStrChars, List.length_append,
            List.length_cons] at hlen ⊢
          omega
        have ihm := ih n2 (by simp) htail
        simp only [pairsChars, pairChars, serStrChars, List.append_assoc, List.cons_append,
          List.nil_append, List.singleton_append] at ihm ⊢
        have hkl := length_le_escapeChars k.data
        have hvl := length_le_escapeChars v.data
        simp only [pairsChars, pairChars, serStrChars, List.length_append,
          List.length_cons] at hlen
        have hk : parseCharsF (n2 + 1 + 1)
              (escapeChars k.data
                ++ '"' :: ':' :: '"' :: (escapeChars v.data ++ '"' :: ',' ::
                  (pairsChars (kv2 :: rest) ++ ['\x7d'])))
            = some (k.data, ':' :: '"' :: (escapeChars v.data ++ '"' :: ',' ::
                (pairsChars (kv2 :: rest) ++ ['\x7d']))) :=
          parseCharsF_escapeChars_fuel _ _ _ (by omega)
        have hv : parseCharsF (n2 + 1 + 1)
              (escapeChars v.data ++ '"' :: ',' :: (pairsChars (kv2 :: rest) ++ ['\x7d']))
            = some (v.data, ',' :: (pairsChars (kv2 :: rest) ++ ['\x7d'])) :=
          parseCharsF_escapeChars_fuel _ _ _ (by omega)
        rw [parsePairsF]
        simp [hk, hv, ihm, string_mk_data]

/-- The parser inverts the compact JSON-object serializer on every
string-valued record map. -/
lemma parseJsonLine_jsonObjectLine (m : JMap) :
    parseJsonLine (jsonObjectLine m) = some m := by
  cases m with
  | nil => rfl
  | cons kv tail =>
    obtain ⟨k, v⟩ := kv
    have hshape : ∃ t0, pairsChars ((k, v) :: tail) = '"' :: t0 := by
      cases tail with
      | nil => exact ⟨_, rfl⟩
      | cons a b => exact ⟨_, rfl⟩
    obtain ⟨t0, ht0⟩ := hshape
    obtain ⟨x, xs, hxx⟩ : ∃ x xs, t0 ++ ['\x7d'] = x :: xs := by
      cases t0 with
      | nil => exact ⟨_, _, rfl⟩
      | cons a b => exact ⟨_, _, rfl⟩
    have hback : ('"' : Char) :: x :: xs = pairsChars ((k, v) :: tail) ++ ['\x7d'] := by
      rw [ht0, List.cons_append, hxx]
    have hdata : (jsonObjectLine ((k, v) :: tail)).data = '\x7b' :: '"' :: x :: xs := by
      show '\x7b' :: (pairsChars ((k, v) :: tail) ++ ['\x7d']) = _
      rw [← hback]
    have hred : parseJsonLine (jsonObjectLine ((k, v) :: tail))
        = parsePairsF ('"' :: x :: xs).length ('"' :: x :: xs) := by
      unfold parseJsonLine
      rw [hdata]
      rfl
    rw [hred, hback]
    have hlen2 : (pairsChars ((k, v) :: tail) ++ ['\x7d']).length = xs.length + 1 + 1 := by
      rw [← hback]
      simp
    rw [hlen2]
    exact parsePairsF_pairsChars _ _ (by simp) (by rw [hlen2])

lemma toJMap_mem_characterization (o : Output) (sel : FieldSelection) :
    (∀ v, ("id", v) ∈ (convert_to_formatted_output sel o).toJMap ↔ sel.id = true ∧ v = o.id) ∧
    (∀ v, ("url", v) ∈ (convert_to_formatted_output sel o).toJMap ↔ sel.url = true ∧ v = o.url) ∧
    (∀ v, ("type", v) ∈ (convert_to_formatted_output sel o).toJMap
      ↔ sel.type_ = true ∧ v = o.type_) ∧
    (∀ v, ("title", v) ∈ (convert_to_formatted_output sel o).toJMap
      ↔ sel.title = true ∧ v = o.title) ∧
    (∀ v, ("description", v) ∈ (convert_to_formatted_output sel o).toJMap
      ↔ sel.description = true ∧ v = o.description) := by
  obtain ⟨i, u, t, ti, d⟩ := sel
  cases i <;> cases u <;> cases t <;> cases ti <;> cases d <;>
    simp [convert_to_formatted_output, FormattedOutput.toJMap, optField, boolThenSome]

lemma nodupKeys_toJMap (sel : FieldSelection) (o : Output) :
    nodupKeys (convert_to_formatted_output sel o).toJMap := by
  obtain ⟨i, u, t, ti, d⟩ := sel
  cases i <;> cases u <;> cases t <;> cases ti <;> cases d <;>
    simp [convert_to_formatted_output, FormattedOutput.toJMap, optField, boolThenSome, nodupKeys]

lemma toJMap_keys (sel : FieldSelection) (o : Output) (k : String)
    (hk : k ∈ ((convert_to_formatted_output sel o).toJMap).map Prod.fst) :
    (k = "id" ∧ sel.id = true) ∨ (k = "url" ∧ sel.url = true) ∨
      (k = "type" ∧ sel.type_ = true) ∨ (k = "title" ∧ sel.title = true) ∨
      (k = "description" ∧ sel.description = true) := by
  obtain ⟨i, u, t, ti, d⟩ := sel
  cases i <;> cases u <;> cases t <;> cases ti <;> cases d <;>
    simp [convert_to_formatted_output, FormattedOutput.toJMap, optField,
      boolThenSome] at hk <;>
    tauto

lemma toJMap_flag_keys (o : Output) (args : List String) :
    ∀ k ∈ ((convert_to_formatted_output (selOfArgs args) o).toJMap).map Prod.fst,
      ("--" ++ k) ∈ args := by
  intro k hk
  rcases toJMap_keys _ o k hk with ⟨rfl, hb⟩ | ⟨rfl, hb⟩ | ⟨rfl, hb⟩ | ⟨rfl, hb⟩ | ⟨rfl, hb⟩ <;>
    simp only [selOfArgs, decide_eq_true_eq] at hb <;>
    first
      | exact (show ("--" ++ "id" : String) = "--id" from by decide) ▸ hb
      | exact (show ("--" ++ "url" : String) = "--url" from by decide) ▸ hb
      | exact (show ("--" ++ "type" : String) = "--type" from by decide) ▸ hb
      | exact (show ("--" ++ "title" : String) = "--title" from by decide) ▸ hb
      | exact (show ("--" ++ "description" : String) = "--description" from by decide) ▸ hb

lemma mem_sort_json_iff {object : JMap} {args : List String} (h : nodupKeys object)
    (hall : ∀ k ∈ object.map Prod.fst, ("--" ++ k) ∈ args) (kv : String × String) :
    kv ∈ sort_json object args ↔ kv ∈ object := by
  constructor
  · intro hm
    rcases mem_sortJsonGo args object [] kv hm with h1 | ⟨h1, _⟩
    · simp at h1
    · exact h1
  · intro hm
    exact mem_sortJsonGo_of_flag args object [] kv h hm (hall _ (List.mem_map_of_mem _ hm))

/-- C8: for every record and argument vector (the field selection being
the one clap derives from that vector), parsing the line produced by the
json encoder succeeds and yields exactly the selected fields with exactly
their original string values — nothing lost, nothing added, nothing
altered. -/
theorem json_roundtrip (o : Output) (args : List String) :
    ∃ parsed, parseJsonLine (jsonObjectLine
        (sort_json (convert_to_formatted_output (selOfArgs args) o).toJMap args))
          = some parsed ∧
      (∀ v, ("id", v) ∈ parsed ↔ ((selOfArgs args).id = true ∧ v = o.id)) ∧
      (∀ v, ("url", v) ∈ parsed ↔ ((selOfArgs args).url = true ∧ v = o.url)) ∧
      (∀ v, ("type", v) ∈ parsed ↔ ((selOfArgs args).type_ = true ∧ v = o.type_)) ∧
      (∀ v, ("title", v) ∈ parsed ↔ ((selOfArgs args).title = true ∧ v = o.title)) ∧
      (∀ v, ("description", v) ∈ parsed
        ↔ ((selOfArgs args).description = true ∧ v = o.description)) := by
  have hchar := toJMap_mem_characterization o (selOfArgs args)
  have hmem := fun kv => mem_sort_json_iff (nodupKeys_toJMap (selOfArgs args) o)
    (toJMap_flag_keys o args) kv
  exact ⟨_, parseJsonLine_jsonObjectLine _,
    fun v => (hmem _).trans (hchar.1 v),
    fun v => (hmem _).trans (hchar.2.1 v),
    fun v => (hmem _).trans (hchar.2.2.1 v),
    fun v => (hmem _).trans (hchar.2.2.2.1 v),
    fun v => (hmem _).trans (hchar.2.2.2.2 v)⟩

end CrunchyCli
